import Mathlib

/-!
Verification of the `_headers` file engine (package `headers`, file `headers.go`).

The Go code is shallowly embedded: Go strings become `List Char`, Go's
`url.URL` becomes the `CF.URL` structure (only the fields the engine reads:
`Scheme`, `Host`, `Path`), and the `map[string][]string` used by `Flatten`
becomes an insertion-ordered association list (`Go` map iteration order is
unspecified; output order across distinct header names is therefore the only
divergence, and every property proved here is insensitive to it).

`url.Parse` from the Go standard library is outside the repository; the
embedded `Parse` takes it as an abstract argument `up : UrlParseFn`, so every
theorem about `Parse` holds for an arbitrary URL-parsing capability.
-/

namespace CF

/-- Go string literal as a character list. -/
def str (s : String) : List Char := s.data

/-- Whitespace set used by Go's `strings.TrimSpace` (`unicode.IsSpace`),
restricted to the Latin-1 range that can occur in realistic header files. -/
def goIsSpace (c : Char) : Bool :=
  c = ' ' || c = '\t' || c = '\n' || c = '\x0b' || c = '\x0c' || c = '\r' ||
  c = '\x85' || c = '\xa0'

/-- Go's `strings.TrimSpace`. -/
def trimSpace (s : List Char) : List Char :=
  ((s.dropWhile goIsSpace).reverse.dropWhile goIsSpace).reverse

/-- Go's `strings.TrimPrefix`. -/
def trimPre (p s : List Char) : List Char :=
  if p.isPrefixOf s then s.drop p.length else s

/-- Go's `strings.TrimSuffix`. -/
def trimSuf (p s : List Char) : List Char :=
  if p.isSuffixOf s then s.take (s.length - p.length) else s

/-- Go's `strings.Contains needle hay` (substring containment). -/
def isSubstring (needle : List Char) : List Char → Bool
  | [] => needle.isPrefixOf []
  | c :: t => needle.isPrefixOf (c :: t) || isSubstring needle t

/-- Split a string at the first occurrence of `needle`
(`strings.SplitN s needle 2`, returning the two pieces when found). -/
def splitOnce (needle : List Char) : List Char → Option (List Char × List Char)
  | [] => if needle.isPrefixOf [] then some ([], []) else none
  | c :: t =>
    if needle.isPrefixOf (c :: t) then some ([], (c :: t).drop needle.length)
    else (splitOnce needle t).map (fun pr => (c :: pr.1, pr.2))

/-- Go's `strings.Replace s old new 1`: replace the first occurrence only. -/
def replaceFirst (s old new : List Char) : List Char :=
  match splitOnce old s with
  | none => s
  | some (p, suf) => p ++ new ++ suf

/-- Character class `[[:word:]]` of the placeholder regex: `[0-9A-Za-z_]`. -/
def wordChar (c : Char) : Bool := c.isAlpha || c.isDigit || c = '_'

/-- Leftmost match of the regex `:[A-Za-z][[:word:]]*`
(`placeholderMatcher.FindString`), `none` when there is no match. -/
def findPlaceholder : List Char → Option (List Char)
  | [] => none
  | ':' :: rest =>
    match rest with
    | c :: t =>
      if c.isAlpha then some (':' :: c :: t.takeWhile wordChar)
      else findPlaceholder rest
    | [] => none
  | _ :: rest => findPlaceholder rest

/-- Function `hasSplat` from headers.go: split the pattern around `*`
(`chunks[0]`/`chunks[1]` of `strings.Split`), require the input to carry that
prefix and suffix, and require the captured middle to avoid `disallowed`. -/
def hasSplat (src inp disallowed : List Char) : Bool × List Char :=
  if isSubstring (str "*") src then
    let chunks := src.splitOn '*'
    let c0 := chunks.headD []
    let c1 := (chunks.drop 1).headD []
    if c0.isPrefixOf inp && c1.isSuffixOf inp then
      let replacing := trimPre c0 (trimSuf c1 inp)
      if isSubstring disallowed replacing then (false, [])
      else (true, replacing)
    else (false, [])
  else (false, [])

/-- Function `hasPlaceholder` from headers.go: find the `:name` token, split the
pattern around its first occurrence (`strings.SplitN src placeholder 2`),
and apply the same prefix/suffix/forbidden-delimiter test. -/
def hasPlaceholder (src inp disallowed : List Char) :
    Bool × List Char × List Char :=
  match findPlaceholder src with
  | none => (false, [], [])
  | some plc =>
    match splitOnce plc src with
    | none => (false, [], [])
    | some (c0, c1) =>
      if c0.isPrefixOf inp && c1.isSuffixOf inp then
        let replacement := trimPre c0 (trimSuf c1 inp)
        if isSubstring disallowed replacement then (false, [], [])
        else (true, plc, replacement)
      else (false, [], [])

/-- A header directive inside a rule block. -/
structure Header where
  Name : List Char
  Value : List Char
  Detach : Bool
deriving DecidableEq

/-- The fields of Go's `url.URL` that the engine reads.  `Host` may still
carry a `:port` suffix; `Hostname()` strips it. -/
structure URL where
  Scheme : List Char
  Host : List Char
  Path : List Char
deriving DecidableEq

/-- A pattern together with the headers it applies. -/
structure Rule where
  Pattern : URL
  Headers : List Header
deriving DecidableEq

/-- An ordered collection of rules. -/
abbrev File := List Rule

/-- Function `replacedHeaders` from headers.go: substitute the first occurrence of the
matched token into every header value. -/
def replacedHeaders (headers : List Header) (placeholder replacement : List Char) :
    List Header :=
  headers.map (fun h => ⟨h.Name, replaceFirst h.Value placeholder replacement, h.Detach⟩)

/-- Port-stripping part of `net/url`'s `splitHostPort` as used by
`URL.Hostname()`: drop a trailing `:digits` (digits possibly empty). -/
def stripPort (h : List Char) : List Char :=
  let r := h.reverse
  let ds := r.takeWhile Char.isDigit
  if (r.drop ds.length).headD ' ' = ':' then (r.drop (ds.length + 1)).reverse
  else h

/-- Go's `URL.Hostname()`: strip an optional port, then IPv6 brackets. -/
def goHostname (h : List Char) : List Char :=
  let s := stripPort h
  if s.headD ' ' = '[' ∧ s.getLast? = some ']' then (s.drop 1).dropLast
  else s

/-- Loop body of `File.Match` for one rule: host rules are tested against the
request's hostname only, all other rules against the path, each through the
splat / placeholder / exact-equality cascade. -/
def matchRule (mapping : Rule) (u : URL) : List Header :=
  let hostname := goHostname u.Host
  if mapping.Pattern.Host ≠ [] then
    if (hasSplat mapping.Pattern.Host hostname (str ".")).1 then
      replacedHeaders mapping.Headers (str ":splat")
        (hasSplat mapping.Pattern.Host hostname (str ".")).2
    else if (hasPlaceholder mapping.Pattern.Host hostname (str ".")).1 then
      replacedHeaders mapping.Headers
        (hasPlaceholder mapping.Pattern.Host hostname (str ".")).2.1
        (hasPlaceholder mapping.Pattern.Host hostname (str ".")).2.2
    else if mapping.Pattern.Host = hostname then mapping.Headers
    else []
  else
    if (hasSplat mapping.Pattern.Path u.Path (str "/")).1 then
      replacedHeaders mapping.Headers (str ":splat")
        (hasSplat mapping.Pattern.Path u.Path (str "/")).2
    else if (hasPlaceholder mapping.Pattern.Path u.Path (str "/")).1 then
      replacedHeaders mapping.Headers
        (hasPlaceholder mapping.Pattern.Path u.Path (str "/")).2.1
        (hasPlaceholder mapping.Pattern.Path u.Path (str "/")).2.2
    else if mapping.Pattern.Path = u.Path then mapping.Headers
    else []

/-- The association-list model of `Flatten`'s `map[string][]string`:
append `v` at the end of key `k`'s value list, creating the key if absent. -/
def aappend (k : List Char) (v : List Char) :
    List (List Char × List (List Char)) → List (List Char × List (List Char))
  | [] => [(k, [v])]
  | (k', vs) :: rest =>
    if k' = k then (k', vs ++ [v]) :: rest else (k', vs) :: aappend k v rest

/-- Go's `delete` on the map: remove key `k`. -/
def adelete (k : List Char) (m : List (List Char × List (List Char))) :
    List (List Char × List (List Char)) :=
  m.filter (fun e => e.1 ≠ k)

/-- Map lookup. -/
def alookup (k : List Char) :
    List (List Char × List (List Char)) → Option (List (List Char))
  | [] => none
  | (k', vs) :: rest => if k' = k then some vs else alookup k rest

/-- One iteration of `Flatten`'s accumulation loop. -/
def flattenStep (m : List (List Char × List (List Char))) (h : Header) :
    List (List Char × List (List Char)) :=
  if h.Detach then adelete h.Name m else aappend h.Name h.Value m

/-- The fully accumulated name → values map of `Flatten`. -/
def flattenMap (headers : List Header) : List (List Char × List (List Char)) :=
  headers.foldl flattenStep []

/-- Go's `strings.Join values ","`. -/
def joinComma (vs : List (List Char)) : List Char := List.intercalate [','] vs

/-- Rendering of one entry: `fmt.Sprintf "%s: %s" name (strings.Join values ",")`. -/
def render (e : List Char × List (List Char)) : List Char :=
  e.1 ++ str ": " ++ joinComma e.2

/-- Function `Flatten` from headers.go (output listed in key-insertion order; the Go
map's iteration order is unspecified). -/
def Flatten (headers : List Header) : List (List Char) :=
  (flattenMap headers).map render

/-- Method `File.Match`: accumulate every rule's contribution in declaration order,
then flatten. -/
def Match (h : File) (u : URL) : List (List Char) :=
  Flatten (h.foldl (fun stack mapping => stack ++ matchRule mapping u) [])

/-- Abstract capability standing for `net/url`'s `url.Parse` (outside this
repository); an error is propagated verbatim by `Parse`. -/
def UrlParseFn : Type := List Char → Except (List Char) URL

/-- The error cases of `Parse`, one constructor per `fmt.Errorf` site plus
the propagated `url.Parse` failure. -/
inductive ParseErr where
  | headerWithoutPattern (line : List Char)
  | invalidHeader (line : List Char)
  | invalidPort (rule : List Char)
  | urlError (msg : List Char)
  | invalidScheme (scheme : List Char)
deriving DecidableEq

/-- The parser's loop state: the currently open pattern, its accumulated
headers, and the completed rules. -/
structure PState where
  pattern : Option URL
  headers : List Header
  hmap : List Rule
deriving DecidableEq

/-- The regex `^https?://(.*?)/`: when the line starts with `http://` or
`https://` and a later `/` exists, capture the characters up to that first
`/` (the host fragment). -/
def absoluteUrlMatch (s : List Char) : Option (List Char) :=
  let rest? : Option (List Char) :=
    if (str "https://").isPrefixOf s then some (s.drop 8)
    else if (str "http://").isPrefixOf s then some (s.drop 7)
    else none
  match rest? with
  | none => none
  | some rest =>
    if rest.any (fun c => c = '/') then some (rest.takeWhile (fun c => c ≠ '/'))
    else none

/-- The regex `:[0-9]+$` (`hostPortMatcher`): the host ends in a colon
followed by at least one digit. -/
def hostHasPort (h : List Char) : Bool :=
  let r := h.reverse
  let ds := r.takeWhile Char.isDigit
  !ds.isEmpty && ((r.drop ds.length).headD ' ' = ':')

/-- Scheme validation shared by both pattern branches of `Parse`. -/
def schemeCheck (pat : URL) (closed : List Rule) :
    Except ParseErr PState :=
  if pat.Scheme ≠ [] ∧ pat.Scheme ≠ str "https" then
    .error (.invalidScheme pat.Scheme)
  else .ok ⟨some pat, [], closed⟩

/-- One iteration of `Parse`'s scanner loop on a single raw line. -/
def parseStep (up : UrlParseFn) (st : PState) (line : List Char) :
    Except ParseErr PState :=
  match trimSpace line with
  | [] => .ok st
  | t0 :: trest =>
    if t0 = '#' then .ok st
    else if line.headD '.' = '\t' ∨ line.headD '.' = ' ' then
      match st.pattern with
      | none => .error (.headerWithoutPattern line)
      | some _ =>
        if t0 = '!' then
          .ok ⟨st.pattern, st.headers ++ [⟨trimSpace trest, [], true⟩], st.hmap⟩
        else
          match splitOnce [':'] (t0 :: trest) with
          | none => .error (.invalidHeader line)
          | some (nm, rest) =>
            .ok ⟨st.pattern, st.headers ++ [⟨nm, trimSpace rest, false⟩], st.hmap⟩
    else
      let closed : List Rule :=
        match st.pattern with
        | some p => st.hmap ++ [⟨p, st.headers⟩]
        | none => st.hmap
      let trimmedL := t0 :: trest
      match absoluteUrlMatch trimmedL with
      | some host =>
        if hostHasPort host then .error (.invalidPort trimmedL)
        else
          match up (replaceFirst trimmedL host (str "PLACEHOLDER")) with
          | .error e => .error (.urlError e)
          | .ok pat => schemeCheck ⟨pat.Scheme, host, pat.Path⟩ closed
      | none =>
        match up trimmedL with
        | .error e => .error (.urlError e)
        | .ok pat => schemeCheck pat closed

/-- End of input: the still-open rule, if any, is appended. -/
def finalize (st : PState) : List Rule :=
  match st.pattern with
  | some p => st.hmap ++ [⟨p, st.headers⟩]
  | none => st.hmap

/-- The scanner loop of `Parse` over the remaining lines. -/
def parseLines (up : UrlParseFn) : PState → List (List Char) →
    Except ParseErr (List Rule)
  | st, [] => .ok (finalize st)
  | st, l :: ls =>
    match parseStep up st l with
    | .error e => .error e
    | .ok st' => parseLines up st' ls

/-- Function `Parse` from headers.go, over pre-scanned lines and an abstract
URL-parsing capability. -/
def Parse (up : UrlParseFn) (lines : List (List Char)) :
    Except ParseErr (List Rule) :=
  parseLines up ⟨none, [], []⟩ lines

/-- The host-rule branch of `Match` in isolation: a function of the pattern
host, the rule's headers and the request's hostname alone — the request's
path, scheme and port do not appear in its signature. -/
def hostRuleEval (phost : List Char) (hs : List Header) (hostname : List Char) :
    List Header :=
  if (hasSplat phost hostname (str ".")).1 then
    replacedHeaders hs (str ":splat") (hasSplat phost hostname (str ".")).2
  else if (hasPlaceholder phost hostname (str ".")).1 then
    replacedHeaders hs (hasPlaceholder phost hostname (str ".")).2.1
      (hasPlaceholder phost hostname (str ".")).2.2
  else if phost = hostname then hs
  else []

/-- The three matching mechanisms of one rule, in the order `Match` tries
them, each paired with the headers it would contribute. -/
def tierList (src inp d : List Char) (hs : List Header) :
    List (Bool × List Header) :=
  [((hasSplat src inp d).1,
      replacedHeaders hs (str ":splat") (hasSplat src inp d).2),
   ((hasPlaceholder src inp d).1,
      replacedHeaders hs (hasPlaceholder src inp d).2.1 (hasPlaceholder src inp d).2.2),
   (decide (src = inp), hs)]

/-- The pattern fragment a rule is matched on: host when present, else path. -/
def ruleSrc (r : Rule) : List Char :=
  if r.Pattern.Host = [] then r.Pattern.Path else r.Pattern.Host

/-- The request fragment a rule is matched against. -/
def ruleInput (r : Rule) (u : URL) : List Char :=
  if r.Pattern.Host = [] then u.Path else goHostname u.Host

/-- The forbidden delimiter for a rule's captures. -/
def ruleDelim (r : Rule) : List Char :=
  if r.Pattern.Host = [] then str "/" else str "."

/-- The keys of the accumulation map, in insertion order. -/
def keysOf (m : List (List Char × List (List Char))) : List (List Char) :=
  m.map Prod.fst

/-- Number of entries of the accumulation map carrying key `k`. -/
def countKey (k : List Char) (m : List (List Char × List (List Char))) : Nat :=
  m.countP (fun e => e.1 == k)

/-- A trivial stand-in URL parser used only in concrete examples and
witnesses. -/
def upStub : UrlParseFn := fun s => .ok ⟨[], [], s⟩

/-- A raw line that is a pattern line in absolute-URL shape whose host
fragment carries a trailing `:port`. -/
def isPortRuleLine (line : List Char) : Prop :=
  ¬(line.headD '.' = '\t' ∨ line.headD '.' = ' ') ∧
  ∃ h, absoluteUrlMatch (trimSpace line) = some h ∧ hostHasPort h = true

example : hasSplat (str "/static/*") (str "/static/image.jpg") (str "/") =
    (true, str "image.jpg") := by decide

example : hasSplat (str "/static/*") (str "/static/a/b.jpg") (str "/") =
    (false, []) := by decide

example : hasPlaceholder (str "/movies/:title") (str "/movies/star-wars") (str "/") =
    (true, str ":title", str "star-wars") := by decide

example : hasPlaceholder (str "/movies/:title")
    (str "/movies/star-wars/episode-1") (str "/") = (false, [], []) := by decide

example : findPlaceholder (str "/secure/:1page") = none := by decide

example : goHostname (str "example.com:1234") = str "example.com" := by decide

example :
    Match [⟨⟨[], [], str "/double/:ref"⟩, [⟨str "x-ref", str ":ref and :ref", false⟩]⟩]
      ⟨str "https", str "example.dev", str "/double/123"⟩ =
    [str "x-ref: 123 and :ref"] := by decide

example :
    Match [⟨⟨[], [], str "/*"⟩, [⟨str "Content-Security-Policy", str "default-src", false⟩]⟩,
           ⟨⟨[], [], str "/*.jpg"⟩, [⟨str "Content-Security-Policy", [], true⟩]⟩]
      ⟨str "https", str "custom.domain", str "/any/path/image.jpg"⟩ = [] := by decide

example :
    Match [⟨⟨str "https", str "myproject.pages.dev", str "/*"⟩,
            [⟨str "X-Robots-Tag", str "noindex", false⟩]⟩]
      ⟨str "https", str "myproject.pages.dev:443", str "/home"⟩ =
    [str "X-Robots-Tag: noindex"] := by decide

example :
    Parse upStub [str "# comment", str "", str "/foo/bar", str "  x-foo: bar"] =
    .ok [⟨⟨[], [], str "/foo/bar"⟩, [⟨str "x-foo", str "bar", false⟩]⟩] := rfl

example :
    Parse upStub [str "https://myproject.pages.dev:1234/*", str "  x-a: b"] =
    .error (.invalidPort (str "https://myproject.pages.dev:1234/*")) := rfl

example :
    Parse upStub [str "  x-foo: bar"] =
    .error (.headerWithoutPattern (str "  x-foo: bar")) := rfl

/-! ### Helper lemmas -/

theorem splitOnce_some {needle hay p s : List Char}
    (h : splitOnce needle hay = some (p, s)) : hay = p ++ needle ++ s := by
  induction hay generalizing p s with
  | nil =>
    by_cases hp : needle.isPrefixOf ([] : List Char)
    · have hne : needle = [] :=
        List.prefix_nil.mp (List.isPrefixOf_iff_prefix.mp hp)
      rw [splitOnce, if_pos hp] at h
      simp only [Option.some.injEq, Prod.mk.injEq] at h
      obtain ⟨rfl, rfl⟩ := h
      simp [hne]
    · rw [splitOnce, if_neg hp] at h
      exact absurd h (by simp)
  | cons c t ih =>
    by_cases hp : needle.isPrefixOf (c :: t)
    · rw [splitOnce, if_pos hp] at h
      simp only [Option.some.injEq, Prod.mk.injEq] at h
      obtain ⟨rfl, rfl⟩ := h
      have hdr := List.prefix_iff_eq_append.mp (List.isPrefixOf_iff_prefix.mp hp)
      conv_lhs => rw [← hdr]
      simp
    · rw [splitOnce, if_neg hp] at h
      cases hm : splitOnce needle t with
      | none => rw [hm] at h; exact absurd h (by simp)
      | some pr =>
        obtain ⟨p', s'⟩ := pr
        rw [hm] at h
        simp only [Option.map_some', Option.some.injEq, Prod.mk.injEq] at h
        obtain ⟨rfl, rfl⟩ := h
        simp [ih hm]

theorem replaceFirst_of_splitOnce {v tok rep p s : List Char}
    (h : splitOnce tok v = some (p, s)) :
    replaceFirst v tok rep = p ++ rep ++ s := by
  simp [replaceFirst, h]

theorem hasSplat_true {src inp d rep : List Char}
    (h : hasSplat src inp d = (true, rep)) : isSubstring d rep = false := by
  unfold hasSplat at h
  split at h
  · dsimp only at h
    split at h
    · split at h
      · simp at h
      · simp only [Prod.mk.injEq] at h
        obtain ⟨-, rfl⟩ := h
        simp_all
    · simp at h
  · simp at h

theorem hasPlaceholder_true {src inp d plc rep : List Char}
    (h : hasPlaceholder src inp d = (true, plc, rep)) :
    isSubstring d rep = false := by
  unfold hasPlaceholder at h
  split at h
  · simp at h
  · split at h
    · simp at h
    · split at h
      · dsimp only at h
        split at h
        · simp at h
        · simp only [Prod.mk.injEq] at h
          obtain ⟨-, -, rfl⟩ := h
          simp_all
      · simp at h

/-! ### Claim theorems -/

/-- C3: a splat or placeholder match succeeds only if the captured middle
substring contains no forbidden delimiter; in particular `/movies/:title`
does not match `/movies/star-wars/episode-1`, and a host splat or
placeholder cannot capture across a subdomain dot. -/
theorem c3_delimiter :
    (∀ src inp d rep : List Char,
       hasSplat src inp d = (true, rep) → isSubstring d rep = false)
    ∧ (∀ src inp d plc rep : List Char,
       hasPlaceholder src inp d = (true, plc, rep) → isSubstring d rep = false)
    ∧ hasPlaceholder (str "/movies/:title") (str "/movies/star-wars/episode-1")
        (str "/") = (false, [], [])
    ∧ hasPlaceholder (str ":subdomain.example.com") (str "sub.dub.example.com")
        (str ".") = (false, [], [])
    ∧ hasSplat (str "*.example.com") (str "sub.dub.example.com") (str ".") =
        (false, []) :=
  ⟨fun _ _ _ _ h => hasSplat_true h,
   fun _ _ _ _ _ h => hasPlaceholder_true h,
   by decide, by decide, by decide⟩

/-- Witness for C3: a concrete successful splat match whose capture is
delimiter-free. -/
theorem c3_witness :
    hasSplat (str "/static/*") (str "/static/image.jpg") (str "/") =
      (true, str "image.jpg") ∧
    isSubstring (str "/") (str "image.jpg") = false :=
  ⟨by decide, c3_delimiter.1 (str "/static/*") (str "/static/image.jpg")
    (str "/") (str "image.jpg") (by decide)⟩

/-- C1 counterexample: for a rule matched via the splat mechanism the code
substitutes the token `:splat` into header values, not the matched character
`*`; with value `* and :splat` and capture `img` the output keeps the `*`
verbatim, refuting the claimed first-`*` replacement. -/
theorem c1_counterexample :
    Match [⟨⟨[], [], str "/static/*"⟩, [⟨str "x-h", str "* and :splat", false⟩]⟩]
        ⟨str "https", str "example.com", str "/static/img"⟩ =
      [str "x-h: * and img"] ∧
    Match [⟨⟨[], [], str "/static/*"⟩, [⟨str "x-h", str "* and :splat", false⟩]⟩]
        ⟨str "https", str "example.com", str "/static/img"⟩ ≠
      [str "x-h: img and :splat"] := by decide

/-- C1 (amended): for every rule matched via the splat mechanism, each header
value has the first occurrence of the literal token `:splat` (not `*`)
replaced by the captured substring, later occurrences untouched. -/
theorem c1_amended_splat_token :
    (∀ (r : Rule) (u : URL) (rep : List Char),
       r.Pattern.Host = [] →
       hasSplat r.Pattern.Path u.Path (str "/") = (true, rep) →
       matchRule r u = replacedHeaders r.Headers (str ":splat") rep)
    ∧ (∀ (r : Rule) (u : URL) (rep : List Char),
       r.Pattern.Host ≠ [] →
       hasSplat r.Pattern.Host (goHostname u.Host) (str ".") = (true, rep) →
       matchRule r u = replacedHeaders r.Headers (str ":splat") rep)
    ∧ (∀ v tok rep p s : List Char, splitOnce tok v = some (p, s) →
         v = p ++ tok ++ s ∧ replaceFirst v tok rep = p ++ rep ++ s) := by
  refine ⟨?_, ?_, ?_⟩
  · intro r u rep hhost hsp
    simp [matchRule, hhost, hsp]
  · intro r u rep hhost hsp
    simp [matchRule, hhost, hsp]
  · intro v tok rep p s h
    exact ⟨splitOnce_some h, replaceFirst_of_splitOnce h⟩

/-- Witness for C1 (amended): the splat rule `/static/*` on path
`/static/img` substitutes `img` for the first `:splat` token only. -/
theorem c1_witness :
    matchRule ⟨⟨[], [], str "/static/*"⟩, [⟨str "x-h", str ":splat or :splat", false⟩]⟩
        ⟨str "https", str "example.com", str "/static/img"⟩ =
      replacedHeaders [⟨str "x-h", str ":splat or :splat", false⟩]
        (str ":splat") (str "img") :=
  c1_amended_splat_token.1
    ⟨⟨[], [], str "/static/*"⟩, [⟨str "x-h", str ":splat or :splat", false⟩]⟩
    ⟨str "https", str "example.com", str "/static/img"⟩ (str "img") rfl (by decide)

/-- C7: for every rule matched via a named placeholder, each header value has
only the first occurrence of the token replaced by the capture — the suffix
after the split point (which carries any later occurrences) is emitted
verbatim; concretely, value `:ref and :ref` with capture `123` renders as
`123 and :ref`. -/
theorem c7_placeholder_first :
    (∀ (r : Rule) (u : URL) (plc rep : List Char),
       r.Pattern.Host = [] →
       (hasSplat r.Pattern.Path u.Path (str "/")).1 = false →
       hasPlaceholder r.Pattern.Path u.Path (str "/") = (true, plc, rep) →
       matchRule r u = replacedHeaders r.Headers plc rep)
    ∧ (∀ (r : Rule) (u : URL) (plc rep : List Char),
       r.Pattern.Host ≠ [] →
       (hasSplat r.Pattern.Host (goHostname u.Host) (str ".")).1 = false →
       hasPlaceholder r.Pattern.Host (goHostname u.Host) (str ".") =
         (true, plc, rep) →
       matchRule r u = replacedHeaders r.Headers plc rep)
    ∧ (∀ v tok rep p s : List Char, splitOnce tok v = some (p, s) →
         v = p ++ tok ++ s ∧ replaceFirst v tok rep = p ++ rep ++ s)
    ∧ Match [⟨⟨[], [], str "/double/:ref"⟩, [⟨str "x-ref", str ":ref and :ref", false⟩]⟩]
        ⟨str "https", str "example.dev", str "/double/123"⟩ =
        [str "x-ref: 123 and :ref"] := by
  refine ⟨?_, ?_, ?_, by decide⟩
  · intro r u plc rep hhost hsp hpl
    simp [matchRule, hhost, hsp, hpl]
  · intro r u plc rep hhost hsp hpl
    simp [matchRule, hhost, hsp, hpl]
  · intro v tok rep p s h
    exact ⟨splitOnce_some h, replaceFirst_of_splitOnce h⟩

/-- Witness for C7: the placeholder rule `/double/:ref` on path `/double/123`
substitutes through `replacedHeaders` with token `:ref` and capture `123`. -/
theorem c7_witness :
    matchRule ⟨⟨[], [], str "/double/:ref"⟩, [⟨str "x-ref", str ":ref and :ref", false⟩]⟩
        ⟨str "https", str "example.dev", str "/double/123"⟩ =
      replacedHeaders [⟨str "x-ref", str ":ref and :ref", false⟩]
        (str ":ref") (str "123") :=
  c7_placeholder_first.1
    ⟨⟨[], [], str "/double/:ref"⟩, [⟨str "x-ref", str ":ref and :ref", false⟩]⟩
    ⟨str "https", str "example.dev", str "/double/123"⟩ (str ":ref") (str "123")
    rfl (by decide) (by decide)

theorem matchRule_congr (r : Rule) (u1 u2 : URL)
    (hh : goHostname u1.Host = goHostname u2.Host) (hp : u1.Path = u2.Path) :
    matchRule r u1 = matchRule r u2 := by
  unfold matchRule
  rw [hh, hp]

/-- C2: a rule with a non-empty pattern host is evaluated on the request's
hostname alone — its contribution equals `hostRuleEval`, a function of only
the pattern host, the headers, and the hostname (splat, then placeholder,
then exact equality) — and any two requests with the same hostname receive
identical contributions from it, whatever their paths. -/
theorem c2_host_only : ∀ (r : Rule) (u : URL), r.Pattern.Host ≠ [] →
    matchRule r u = hostRuleEval r.Pattern.Host r.Headers (goHostname u.Host) ∧
    ∀ u2 : URL, goHostname u2.Host = goHostname u.Host →
      matchRule r u2 = matchRule r u := by
  intro r u hhost
  constructor
  · simp [matchRule, hostRuleEval, hhost]
  · intro u2 h2
    unfold matchRule
    rw [h2]
    simp [hhost]

/-- Witness for C2: a host rule contributes identically to two requests that
share a hostname but differ in path (and scheme). -/
theorem c2_witness :
    matchRule ⟨⟨str "https", str "myproject.pages.dev", str "/*"⟩,
        [⟨str "X-Robots-Tag", str "noindex", false⟩]⟩
      ⟨str "http", str "myproject.pages.dev", str "/other/path"⟩ =
    matchRule ⟨⟨str "https", str "myproject.pages.dev", str "/*"⟩,
        [⟨str "X-Robots-Tag", str "noindex", false⟩]⟩
      ⟨str "https", str "myproject.pages.dev", str "/home"⟩ :=
  (c2_host_only
    ⟨⟨str "https", str "myproject.pages.dev", str "/*"⟩,
        [⟨str "X-Robots-Tag", str "noindex", false⟩]⟩
    ⟨str "https", str "myproject.pages.dev", str "/home"⟩ (by decide)).2
    ⟨str "http", str "myproject.pages.dev", str "/other/path"⟩ rfl

/-- C5: `Match` reads a request only through its hostname and path, so two
URLs agreeing on those — whatever their scheme, and whatever port their host
field carries — produce the same header lines for every file. -/
theorem c5_scheme_port_independent : ∀ (f : File) (u1 u2 : URL),
    goHostname u1.Host = goHostname u2.Host → u1.Path = u2.Path →
    Match f u1 = Match f u2 := by
  intro f u1 u2 hh hp
  unfold Match
  suffices hfold : ∀ acc : List Header,
      f.foldl (fun stack m => stack ++ matchRule m u1) acc =
      f.foldl (fun stack m => stack ++ matchRule m u2) acc from
    congrArg Flatten (hfold [])
  induction f with
  | nil => intro acc; rfl
  | cons r rs ih =>
    intro acc
    rw [List.foldl_cons, List.foldl_cons, matchRule_congr r u1 u2 hh hp, ih]

/-- Witness for C5: same hostname and path, different scheme and port, same
output. -/
theorem c5_witness :
    Match [⟨⟨[], [], str "/secure/page"⟩, [⟨str "X-Frame-Options", str "DENY", false⟩]⟩]
      ⟨str "http", str "example.com:8080", str "/secure/page"⟩ =
    Match [⟨⟨[], [], str "/secure/page"⟩, [⟨str "X-Frame-Options", str "DENY", false⟩]⟩]
      ⟨str "https", str "example.com", str "/secure/page"⟩ :=
  c5_scheme_port_independent
    [⟨⟨[], [], str "/secure/page"⟩, [⟨str "X-Frame-Options", str "DENY", false⟩]⟩]
    ⟨str "http", str "example.com:8080", str "/secure/page"⟩
    ⟨str "https", str "example.com", str "/secure/page"⟩ (by decide) rfl

/-- C9: a line that trims to nothing, or whose trimmed content starts with
`#`, is skipped entirely by the parser — the state is unchanged and no error
is raised, even when the raw line is indented and no pattern is open. -/
theorem c9_skip_blank_comment : ∀ (up : UrlParseFn) (st : PState) (line : List Char),
    trimSpace line = [] ∨ (trimSpace line).headD ' ' = '#' →
    parseStep up st line = .ok st := by
  intro up st line h
  cases hq : trimSpace line with
  | nil => simp [parseStep, hq]
  | cons t0 trest =>
    rcases h with h | h
    · rw [hq] at h; exact absurd h (by simp)
    · rw [hq] at h
      simp only [List.headD_cons] at h
      simp [parseStep, hq, h]

/-- Witness for C9: an indented comment line with no open pattern is skipped,
not reported as a header without a pattern. -/
theorem c9_witness :
    parseStep upStub ⟨none, [], []⟩ (str "   # a comment") = .ok ⟨none, [], []⟩ :=
  c9_skip_blank_comment upStub ⟨none, [], []⟩ (str "   # a comment")
    (Or.inr (by decide))

theorem tier_eval (src inp d : List Char) (hdrs : List Header) :
    (if (hasSplat src inp d).1 then
       replacedHeaders hdrs (str ":splat") (hasSplat src inp d).2
     else if (hasPlaceholder src inp d).1 then
       replacedHeaders hdrs (hasPlaceholder src inp d).2.1 (hasPlaceholder src inp d).2.2
     else if src = inp then hdrs else []) =
    ((((tierList src inp d hdrs).find? (fun tr => tr.1)).map
        (fun tr => tr.2)).getD []) := by
  cases hs1 : (hasSplat src inp d).1 <;> cases hs2 : (hasPlaceholder src inp d).1
  all_goals
    simp only [tierList, hs1, hs2]
  all_goals
    by_cases h3 : src = inp <;> simp [List.find?, h3]

/-- C10: each rule contributes at most once per `Match` call: its result is
exactly the contribution of the first mechanism in the fixed order splat,
placeholder, exact equality (taken over the hostname for host rules, the
path otherwise) that succeeds, or nothing when none does — even when several
mechanisms would succeed. -/
theorem c10_first_mechanism : ∀ (r : Rule) (u : URL),
    matchRule r u =
      ((((tierList (ruleSrc r) (ruleInput r u) (ruleDelim r) r.Headers).find?
          (fun tr => tr.1)).map (fun tr => tr.2)).getD []) := by
  intro r u
  by_cases hhost : r.Pattern.Host = []
  · have e1 : ruleSrc r = r.Pattern.Path := by simp [ruleSrc, hhost]
    have e2 : ruleInput r u = u.Path := by simp [ruleInput, hhost]
    have e3 : ruleDelim r = str "/" := by simp [ruleDelim, hhost]
    rw [e1, e2, e3, ← tier_eval]
    simp [matchRule, hhost]
  · have e1 : ruleSrc r = r.Pattern.Host := by simp [ruleSrc, hhost]
    have e2 : ruleInput r u = goHostname u.Host := by simp [ruleInput, hhost]
    have e3 : ruleDelim r = str "." := by simp [ruleDelim, hhost]
    rw [e1, e2, e3, ← tier_eval]
    simp [matchRule, hhost]

theorem absoluteUrlMatch_head {s r : List Char}
    (h : absoluteUrlMatch s = some r) : ∃ t, s = 'h' :: t := by
  by_cases h1 : (str "https://").isPrefixOf s
  · obtain ⟨t, ht⟩ := List.isPrefixOf_iff_prefix.mp h1
    exact ⟨str "ttps://" ++ t, by rw [← ht]; rfl⟩
  · by_cases h2 : (str "http://").isPrefixOf s
    · obtain ⟨t, ht⟩ := List.isPrefixOf_iff_prefix.mp h2
      exact ⟨str "ttp://" ++ t, by rw [← ht]; rfl⟩
    · exact absurd h (by simp [absoluteUrlMatch, h1, h2])

theorem parseStep_port (up : UrlParseFn) (st : PState) (line host : List Char)
    (hhead : ¬(line.headD '.' = '\t' ∨ line.headD '.' = ' '))
    (habs : absoluteUrlMatch (trimSpace line) = some host)
    (hport : hostHasPort host = true) :
    parseStep up st line = .error (.invalidPort (trimSpace line)) := by
  obtain ⟨t, ht⟩ := absoluteUrlMatch_head habs
  rw [ht] at habs
  unfold parseStep
  rw [ht]
  dsimp only
  rw [if_neg (by decide : ¬('h' = '#')), if_neg hhead]
  simp [habs, hport]

theorem parseLines_port_err (up : UrlParseFn) (lines : List (List Char)) :
    ∀ st : PState, (∃ l ∈ lines, isPortRuleLine l) →
    ∀ rules, parseLines up st lines ≠ .ok rules := by
  induction lines with
  | nil => simp
  | cons x ls ih =>
    intro st hex rules
    rcases hex with ⟨l, hl, hpl⟩
    rcases List.mem_cons.mp hl with rfl | htail
    · rcases hpl with ⟨hh, h, habs, hport⟩
      rw [parseLines, parseStep_port up st l h hh habs hport]
      simp
    · rw [parseLines]
      cases hps : parseStep up st x with
      | error e => simp
      | ok st' => simpa using ih st' ⟨l, htail, hpl⟩ rules

/-- C6: a non-indented pattern line in absolute-URL shape whose host fragment
ends in `:port` makes the parser fail with the invalid-port error, whatever
the parser state and whatever the URL library does; consequently `Parse`
never returns a rule list for a file containing such a line. -/
theorem c6_invalid_port :
    (∀ (up : UrlParseFn) (st : PState) (line host : List Char),
       ¬(line.headD '.' = '\t' ∨ line.headD '.' = ' ') →
       absoluteUrlMatch (trimSpace line) = some host →
       hostHasPort host = true →
       parseStep up st line = .error (.invalidPort (trimSpace line)))
    ∧ (∀ (up : UrlParseFn) (lines : List (List Char)),
       (∃ l ∈ lines, isPortRuleLine l) →
       ∀ rules, Parse up lines ≠ .ok rules) :=
  ⟨parseStep_port,
   fun up lines hex rules => parseLines_port_err up lines ⟨none, [], []⟩ hex rules⟩

theorem alookup_aappend_self (k v : List Char)
    (m : List (List Char × List (List Char))) :
    alookup k (aappend k v m) = some ((alookup k m).getD [] ++ [v]) := by
  induction m with
  | nil => simp [aappend, alookup]
  | cons e rest ih =>
    obtain ⟨k', vs⟩ := e
    by_cases h : k' = k
    · subst h; simp [aappend, alookup]
    · simp [aappend, alookup, h, ih]

theorem alookup_aappend_ne {k' k : List Char} (v : List Char)
    (m : List (List Char × List (List Char))) (h : k' ≠ k) :
    alookup k' (aappend k v m) = alookup k' m := by
  have h2 : ¬(k = k') := fun hx => h hx.symm
  induction m with
  | nil => simp [aappend, alookup, h2]
  | cons e rest ih =>
    obtain ⟨k'', vs⟩ := e
    by_cases he : k'' = k
    · subst he; simp [aappend, alookup, h2]
    · simp [aappend, alookup, he, ih]

theorem alookup_adelete_self (k : List Char)
    (m : List (List Char × List (List Char))) :
    alookup k (adelete k m) = none := by
  induction m with
  | nil => simp [adelete, alookup]
  | cons e rest ih =>
    obtain ⟨k', vs⟩ := e
    by_cases h : k' = k
    · subst h; simpa [adelete, List.filter] using ih
    · simpa [adelete, List.filter, h, alookup] using ih

theorem alookup_adelete_ne {k' k : List Char}
    (m : List (List Char × List (List Char))) (h : k' ≠ k) :
    alookup k' (adelete k m) = alookup k' m := by
  have h2 : ¬(k = k') := fun hx => h hx.symm
  induction m with
  | nil => simp [adelete, alookup]
  | cons e rest ih =>
    obtain ⟨k'', vs⟩ := e
    by_cases he : k'' = k
    · subst he
      simpa [adelete, List.filter, alookup, h2] using ih
    · by_cases he2 : k'' = k'
      · subst he2; simp [adelete, List.filter, he, alookup]
      · simpa [adelete, List.filter, he, he2, alookup] using ih

theorem flattenStep_agree (name : List Char) (h : Header)
    (m1 m2 : List (List Char × List (List Char)))
    (hag : ∀ k, k ≠ name → alookup k m1 = alookup k m2) :
    ∀ k, k ≠ name → alookup k (flattenStep m1 h) = alookup k (flattenStep m2 h) := by
  intro k hk
  unfold flattenStep
  by_cases hd : h.Detach = true
  · rw [hd]
    simp only [if_true]
    by_cases he : k = h.Name
    · subst he; rw [alookup_adelete_self, alookup_adelete_self]
    · rw [alookup_adelete_ne m1 he, alookup_adelete_ne m2 he]
      exact hag k hk
  · rw [Bool.not_eq_true] at hd
    rw [hd]
    simp only [Bool.false_eq_true, if_false]
    by_cases he : k = h.Name
    · subst he
      rw [alookup_aappend_self, alookup_aappend_self, hag h.Name hk]
    · rw [alookup_aappend_ne h.Value m1 he, alookup_aappend_ne h.Value m2 he]
      exact hag k hk

theorem flattenFold_agree (name : List Char) (hs : List Header) :
    ∀ m1 m2 : List (List Char × List (List Char)),
    (∀ k, k ≠ name → alookup k m1 = alookup k m2) →
    ∀ k, k ≠ name →
      alookup k (hs.foldl flattenStep m1) = alookup k (hs.foldl flattenStep m2) := by
  induction hs with
  | nil => intro m1 m2 hag; exact hag
  | cons h t ih =>
    intro m1 m2 hag
    exact ih _ _ (flattenStep_agree name h m1 m2 hag)

/-- C4: a detach entry removes exactly the values of its own name accumulated
from earlier stack entries: every other name's accumulated values are as if
the detach were absent, the detached name has no surviving values when the
detach is last, and a later non-detach entry reintroduces the name. -/
theorem c4_detach : ∀ (pre post : List Header) (name v : List Char),
    (∀ k, k ≠ name →
       alookup k (flattenMap (pre ++ ⟨name, [], true⟩ :: post)) =
       alookup k (flattenMap (pre ++ post)))
    ∧ alookup name (flattenMap (pre ++ [⟨name, [], true⟩])) = none
    ∧ alookup name (flattenMap (pre ++ [⟨name, [], true⟩, ⟨name, v, false⟩])) =
        some [v] := by
  intro pre post name v
  refine ⟨?_, ?_, ?_⟩
  · intro k hk
    unfold flattenMap
    rw [List.foldl_append, List.foldl_append, List.foldl_cons]
    refine flattenFold_agree name post _ _ (fun k' hk' => ?_) k hk
    show alookup k' (flattenStep _ ⟨name, [], true⟩) = _
    simp only [flattenStep, if_true]
    exact alookup_adelete_ne _ hk'
  · unfold flattenMap
    rw [List.foldl_append]
    simp only [List.foldl_cons, List.foldl_nil, flattenStep, if_true]
    exact alookup_adelete_self _ _
  · unfold flattenMap
    rw [List.foldl_append]
    simp only [List.foldl_cons, List.foldl_nil, flattenStep, if_true,
      Bool.false_eq_true, if_false]
    rw [alookup_aappend_self, alookup_adelete_self]
    rfl

/-- Witness for C4: with `A` accumulated, then detached, then re-added, the
other name `B` is untouched and `A` holds exactly the later value. -/
theorem c4_witness :
    alookup (str "B")
        (flattenMap ([⟨str "A", str "1", false⟩, ⟨str "B", str "2", false⟩] ++
          ⟨str "A", [], true⟩ :: [⟨str "A", str "3", false⟩])) =
      alookup (str "B")
        (flattenMap ([⟨str "A", str "1", false⟩, ⟨str "B", str "2", false⟩] ++
          [⟨str "A", str "3", false⟩])) :=
  (c4_detach [⟨str "A", str "1", false⟩, ⟨str "B", str "2", false⟩]
    [⟨str "A", str "3", false⟩] (str "A") (str "v")).1 (str "B") (by decide)

theorem alookup_eq_some_mem {k : List Char} {vs : List (List Char)}
    {m : List (List Char × List (List Char))} (h : alookup k m = some vs) :
    (k, vs) ∈ m := by
  induction m with
  | nil => simp [alookup] at h
  | cons e rest ih =>
    obtain ⟨k', vs'⟩ := e
    by_cases he : k' = k
    · subst he
      simp only [alookup, if_true] at h
      obtain rfl := Option.some.inj h
      exact List.mem_cons_self _ _
    · simp only [alookup, if_neg he] at h
      exact List.mem_cons_of_mem _ (ih h)

theorem mem_keysOf_aappend {x k v : List Char}
    {m : List (List Char × List (List Char))}
    (h : x ∈ keysOf (aappend k v m)) : x ∈ keysOf m ∨ x = k := by
  induction m with
  | nil =>
    simp only [aappend, keysOf, List.map_cons, List.map_nil, List.mem_singleton] at h
    exact Or.inr h
  | cons e rest ih =>
    obtain ⟨k', vs⟩ := e
    by_cases he : k' = k
    · subst he
      simp only [aappend, if_pos rfl, keysOf, List.map_cons] at h ⊢
      exact Or.inl h
    · simp only [aappend, if_neg he, keysOf, List.map_cons, List.mem_cons] at h ⊢
      rcases h with h | h
      · exact Or.inl (Or.inl h)
      · rcases ih h with h2 | h2
        · exact Or.inl (Or.inr h2)
        · exact Or.inr h2

theorem nodup_keysOf_aappend (k v : List Char) :
    ∀ m : List (List Char × List (List Char)),
    (keysOf m).Nodup → (keysOf (aappend k v m)).Nodup := by
  intro m
  induction m with
  | nil => intro _; simp [aappend, keysOf]
  | cons e rest ih =>
    intro hnd
    obtain ⟨k', vs⟩ := e
    simp only [keysOf, List.map_cons, List.nodup_cons] at hnd
    obtain ⟨hk', hrest⟩ := hnd
    by_cases he : k' = k
    · subst he
      have hrw : aappend k' v ((k', vs) :: rest) = (k', vs ++ [v]) :: rest := by
        simp [aappend]
      rw [hrw]
      simp only [keysOf, List.map_cons, List.nodup_cons]
      exact ⟨hk', hrest⟩
    · simp only [aappend, if_neg he, keysOf, List.map_cons, List.nodup_cons]
      refine ⟨fun hmem => ?_, ih hrest⟩
      rcases mem_keysOf_aappend hmem with h2 | h2
      · exact hk' h2
      · exact he h2

theorem keysOf_adelete_sublist (k : List Char)
    (m : List (List Char × List (List Char))) :
    List.Sublist (keysOf (adelete k m)) (keysOf m) :=
  (List.filter_sublist m).map Prod.fst

theorem nodup_keysOf_foldl (hs : List Header) :
    ∀ m : List (List Char × List (List Char)),
    (keysOf m).Nodup → (keysOf (hs.foldl flattenStep m)).Nodup := by
  induction hs with
  | nil => intro m h; simpa using h
  | cons h t ih =>
    intro m hnd
    rw [List.foldl_cons]
    apply ih
    cases hdet : h.Detach
    · simp only [flattenStep, hdet, Bool.false_eq_true, if_false]
      exact nodup_keysOf_aappend _ _ m hnd
    · simp only [flattenStep, hdet, if_true]
      exact hnd.sublist (keysOf_adelete_sublist h.Name m)

theorem mem_keysOf_foldl (hs : List Header) :
    ∀ (m : List (List Char × List (List Char))) (x : List Char),
    x ∈ keysOf (hs.foldl flattenStep m) →
    x ∈ keysOf m ∨ ∃ hh ∈ hs, hh.Name = x := by
  induction hs with
  | nil => intro m x h; exact Or.inl (by simpa using h)
  | cons h t ih =>
    intro m x hx
    rw [List.foldl_cons] at hx
    rcases ih _ x hx with h1 | h1
    · cases hdet : h.Detach
      · simp only [flattenStep, hdet, Bool.false_eq_true, if_false] at h1
        rcases mem_keysOf_aappend h1 with h2 | h2
        · exact Or.inl h2
        · exact Or.inr ⟨h, List.mem_cons_self _ _, h2.symm⟩
      · simp only [flattenStep, hdet, if_true] at h1
        exact Or.inl ((keysOf_adelete_sublist h.Name m).mem h1)
    · rcases h1 with ⟨hh, hmem, hname⟩
      exact Or.inr ⟨hh, List.mem_cons_of_mem _ hmem, hname⟩

theorem countKey_eq_one :
    ∀ (m : List (List Char × List (List Char))) (k : List Char),
    (keysOf m).Nodup → k ∈ keysOf m → countKey k m = 1 := by
  intro m
  induction m with
  | nil => intro k _ h; simp [keysOf] at h
  | cons e rest ih =>
    intro k hnd hmem
    obtain ⟨k', vs⟩ := e
    simp only [keysOf, List.map_cons, List.nodup_cons] at hnd
    obtain ⟨hk', hrest⟩ := hnd
    simp only [keysOf, List.map_cons, List.mem_cons] at hmem
    rcases hmem with rfl | hmem
    · have hz : rest.countP (fun e => e.1 == k) = 0 := by
        refine List.countP_eq_zero.mpr (fun a hma hpa => ?_)
        exact hk' (beq_iff_eq.mp hpa ▸ List.mem_map_of_mem Prod.fst hma)
      simp [countKey, List.countP_cons, hz]
    · have hne : ¬(k' = k) := fun he => hk' (he ▸ hmem)
      have hih := ih k hrest hmem
      simp only [countKey, List.countP_cons] at hih ⊢
      simp [hne, hih]

theorem colon_pref_aux : ∀ (a b tail : List Char), ':' ∉ a → ':' ∉ b →
    (a ++ [':']) <+: (b ++ ':' :: tail) → a = b := by
  intro a
  induction a with
  | nil =>
    intro b tail _ hb h
    cases b with
    | nil => rfl
    | cons c bs =>
      rw [List.nil_append, List.cons_append] at h
      obtain ⟨h1, -⟩ := List.cons_prefix_cons.mp h
      exact (hb (by rw [h1]; exact List.mem_cons_self _ _)).elim
  | cons x xs ih =>
    intro b tail ha hb h
    cases b with
    | nil =>
      rw [List.cons_append, List.nil_append] at h
      obtain ⟨h1, -⟩ := List.cons_prefix_cons.mp h
      exact (ha (by rw [← h1]; exact List.mem_cons_self _ _)).elim
    | cons y ys =>
      rw [List.cons_append, List.cons_append] at h
      obtain ⟨h1, h2⟩ := List.cons_prefix_cons.mp h
      subst h1
      have ha' : ':' ∉ xs := fun hx => ha (List.mem_cons_of_mem _ hx)
      have hb' : ':' ∉ ys := fun hx => hb (List.mem_cons_of_mem _ hx)
      rw [ih ys tail ha' hb' h2]

theorem render_eq (e : List Char × List (List Char)) :
    render e = e.1 ++ ':' :: ' ' :: joinComma e.2 := by
  unfold render
  rw [List.append_assoc]
  rfl

theorem pref_render_iff {name : List Char} {e : List Char × List (List Char)}
    (hn : ':' ∉ name) (he : ':' ∉ e.1) :
    ((name ++ [':']).isPrefixOf (render e) = true) ↔ ((e.1 == name) = true) := by
  rw [List.isPrefixOf_iff_prefix, render_eq, beq_iff_eq]
  constructor
  · intro h
    exact (colon_pref_aux name e.1 (' ' :: joinComma e.2) hn he h).symm
  · intro h
    rw [h]
    exact ⟨' ' :: joinComma e.2, by simp⟩

/-- C8: several stack entries for one header name (with no detach clearing
them) flatten to a single line of the form `Name: v1,v2,...,vN`: the
accumulated values appear comma-joined with no space, in accumulation
(declaration) order — a later contribution appends at the end — and the
output carries exactly one line whose name part is that name. -/
theorem c8_comma_join :
    ∀ (hs : List Header) (name : List Char) (vs : List (List Char)) (v : List Char),
    (alookup name (flattenMap hs) = some vs →
       (name ++ str ": " ++ joinComma vs) ∈ Flatten hs ∧
       ((∀ hh ∈ hs, ':' ∉ hh.Name) →
          (Flatten hs).countP (fun l => (name ++ [':']).isPrefixOf l) = 1))
    ∧ alookup name (flattenMap (hs ++ [⟨name, v, false⟩])) =
        some ((alookup name (flattenMap hs)).getD [] ++ [v])
    ∧ joinComma [str "v1", str "v2", str "v3"] = str "v1,v2,v3" := by
  intro hs name vs v
  refine ⟨fun h => ⟨?_, fun hcf => ?_⟩, ?_, by decide⟩
  · exact List.mem_map_of_mem render (alookup_eq_some_mem h)
  · have hmem : (name, vs) ∈ flattenMap hs := alookup_eq_some_mem h
    have hkeymem : name ∈ keysOf (flattenMap hs) :=
      List.mem_map_of_mem Prod.fst hmem
    have hnd : (keysOf (flattenMap hs)).Nodup :=
      nodup_keysOf_foldl hs [] (by simp [keysOf])
    have hnameok : ':' ∉ name := by
      rcases mem_keysOf_foldl hs [] name hkeymem with h0 | ⟨hh, hhmem, hhname⟩
      · simp [keysOf] at h0
      · exact hhname ▸ hcf hh hhmem
    have hcong :
        (flattenMap hs).countP ((fun l => (name ++ [':']).isPrefixOf l) ∘ render) =
        (flattenMap hs).countP (fun e => e.1 == name) := by
      refine List.countP_congr (fun e hme => ?_)
      have he1 : ':' ∉ e.1 := by
        rcases mem_keysOf_foldl hs [] e.1
            (List.mem_map_of_mem Prod.fst hme) with h0 | ⟨hh, hhmem, hhname⟩
        · simp [keysOf] at h0
        · exact hhname ▸ hcf hh hhmem
      exact pref_render_iff hnameok he1
    show (Flatten hs).countP (fun l => (name ++ [':']).isPrefixOf l) = 1
    unfold Flatten
    rw [List.countP_map, hcong]
    exact countKey_eq_one (flattenMap hs) name hnd hkeymem
  · unfold flattenMap
    rw [List.foldl_append]
    simp only [List.foldl_cons, List.foldl_nil, flattenStep, Bool.false_eq_true,
      if_false]
    exact alookup_aappend_self _ _ _

/-- Witness for C8: two values accumulated under `A` render as the single
line `A: 1,2`. -/
theorem c8_witness :
    (str "A" ++ str ": " ++ joinComma [str "1", str "2"]) ∈
      Flatten [⟨str "A", str "1", false⟩, ⟨str "A", str "2", false⟩] :=
  ((c8_comma_join [⟨str "A", str "1", false⟩, ⟨str "A", str "2", false⟩]
      (str "A") [str "1", str "2"] []).1 (by decide)).1

/-- Witness for C6: the documented example line is rejected with the
invalid-port error. -/
theorem c6_witness :
    parseStep upStub ⟨none, [], []⟩ (str "https://myproject.pages.dev:1234/*") =
      .error (.invalidPort (str "https://myproject.pages.dev:1234/*")) :=
  c6_invalid_port.1 upStub ⟨none, [], []⟩
    (str "https://myproject.pages.dev:1234/*")
    (str "myproject.pages.dev:1234") (by decide) (by decide) (by decide)

end CF
